import Mathlib

/-!
Shallow embedding of the CBZ/ZIP-to-video pipeline (`src/vid.py`).

Durations are modelled as rationals (the Python source manipulates them
with `min`, `max`, subtraction and multiplication only, so the structural
claims are about exact arithmetic).  File names and paths are lists of
characters; the external processes (ffmpeg, magick) are modelled by the
per-item outcome they produce (exit code zero or not), which is the only
part of their behaviour the script observes.
-/

namespace Vid

/-! ### Encoder driver: expected duration and audio fades (`run_ffmpeg`) -/

/-- `expected_video_duration = (num_input_images + 1) * duration_per_frame`
(src/vid.py line 429). -/
def expected_video_duration (num_input_images : Nat) (duration_per_frame : ℚ) : ℚ :=
  (num_input_images + 1) * duration_per_frame

/-- One `afade` audio filter, fade-in or fade-out, with start time and duration. -/
inductive AFade : Type
  | fadeIn : ℚ → ℚ → AFade
  | fadeOut : ℚ → ℚ → AFade
deriving DecidableEq, Repr

/-- The audio-fade block of `run_ffmpeg` (src/vid.py lines 431-445):
cap both configured fades at the expected duration, compute the fade-out
start time, and keep only the fades with positive capped duration. -/
def audio_filters (expected fade_in_dur fade_out_dur : ℚ) : List AFade :=
  let actual_fade_in_duration := min fade_in_dur expected
  let actual_fade_out_duration := min fade_out_dur expected
  let fade_out_start_time := max 0 (expected - actual_fade_out_duration)
  (if actual_fade_in_duration > 0 then [AFade.fadeIn 0 actual_fade_in_duration] else [])
    ++ (if actual_fade_out_duration > 0 ∧ fade_out_start_time ≥ 0 then
          [AFade.fadeOut fade_out_start_time actual_fade_out_duration] else [])

/-- The `-af` argument of the ffmpeg command: present (as the single comma-joined
list of the surviving fades) exactly when `audio_filters` is non-empty
(src/vid.py lines 444-445). -/
def af_argument (expected fade_in_dur fade_out_dur : ℚ) : Option (List AFade) :=
  let filters := audio_filters expected fade_in_dur fade_out_dur
  if filters ≠ [] then some filters else none

/-! ### Encoder driver: progress tracking (`run_ffmpeg` stderr loop) -/

/-- The tqdm progress bar as the driver uses it: the total it was created
with and its current position `n` (tqdm positions start at `0`). -/
structure BarState : Type where
  total : ℚ
  n : ℚ
deriving DecidableEq, Repr

/-- One progress update (src/vid.py lines 500-505):
`update_delta = max(0, current_seconds - progress_bar.n)` and the bar is
advanced by `update_delta` when `update_delta > 0 or current_seconds > progress_bar.n`. -/
def barUpdate (b : BarState) (current_seconds : ℚ) : BarState :=
  let update_delta := max 0 (current_seconds - b.n)
  if update_delta > 0 ∨ current_seconds > b.n then
    BarState.mk b.total (b.n + update_delta)
  else b

/-- The three shapes of stderr line the driver distinguishes: the one-time
`Duration:` announcement, a `time=` progress line, and anything else. -/
inductive FLine : Type
  | duration : ℚ → FLine
  | progress : ℚ → FLine
  | other : FLine
deriving DecidableEq, Repr

/-- One iteration of the stderr-reading loop, acting on the optional progress
bar (src/vid.py lines 484-509).  A `Duration:` line and unrecognized lines
leave the bar alone; a progress line first creates the bar (with
`total := expected`, position `0`) if it does not exist yet and the expected
duration is positive, then applies `barUpdate`. -/
def stepLine (expected : ℚ) (bar : Option BarState) (l : FLine) : Option BarState :=
  match l with
  | FLine.duration _ => bar
  | FLine.other => bar
  | FLine.progress t =>
      match bar with
      | none =>
          if expected > 0 then some (barUpdate (BarState.mk expected 0) t) else none
      | some b => some (barUpdate b t)

/-- The whole stderr loop over the sequence of parsed lines. -/
def runLines (expected : ℚ) (lines : List FLine) : Option BarState :=
  lines.foldl (stepLine expected) none

/-- The post-loop block of `run_ffmpeg` (src/vid.py lines 512-518): if a bar
exists and the expected duration is positive, its position is forced to the
expected duration (100%). -/
def finishBar (expected : ℚ) (bar : Option BarState) : Option BarState :=
  match bar with
  | none => none
  | some b => if expected > 0 then some (BarState.mk b.total expected) else some b

/-- The tail of `run_ffmpeg` (src/vid.py lines 512-530): the bar is finished
first, and only then is the process return code examined; a non-zero code
raises `CalledProcessError` (modelled as `Except.error`). -/
def ffmpegEpilogue (expected : ℚ) (bar : Option BarState) (returncode : Int) :
    Option BarState × Except Int Unit :=
  (finishBar expected bar, if returncode ≠ 0 then Except.error returncode else Except.ok ())

/-! ### Manifest builder (`write_ffmpeg_input_list`) -/

/-- `full_path.replace("\\", "/")` (src/vid.py lines 364, 371). -/
def normSlashes (p : List Char) : List Char :=
  p.map (fun c => if c = '\\' then '/' else c)

/-- `full_path.replace("'", "'\\''")`: each single quote in the path becomes
the four characters quote, backslash, quote, quote (src/vid.py lines 366, 372). -/
def escapeQuotes (p : List Char) : List Char :=
  (p.map (fun c => if c = '\'' then ['\'', '\\', '\'', '\''] else [c])).flatten

/-- `os.path.join(base_folder, img_rel_path)` for a relative member path. -/
def pathJoin (base rel : List Char) : List Char := base ++ '/' :: rel

/-- The processed path as it appears on a `file` line of the manifest. -/
def manifestPath (base rel : List Char) : List Char :=
  escapeQuotes (normSlashes (pathJoin base rel))

/-- One line of the manifest: a `file '<path>'` line or a `duration <d>` line. -/
inductive ManifestLine : Type
  | file : List Char → ManifestLine
  | dur : ℚ → ManifestLine
deriving DecidableEq, Repr

/-- `write_ffmpeg_input_list` (src/vid.py lines 355-374): for every image a
`file` line followed by a `duration` line, and, when the list is non-empty,
the last image's `file` line once more with no duration line. -/
def write_ffmpeg_input_list (images_relative_paths : List (List Char))
    (base_folder : List Char) (duration_per_frame : ℚ) : List ManifestLine :=
  (images_relative_paths.map (fun img =>
      [ManifestLine.file (manifestPath base_folder img),
       ManifestLine.dur duration_per_frame])).flatten
    ++ (match images_relative_paths.getLast? with
        | some last => [ManifestLine.file (manifestPath base_folder last)]
        | none => [])

/-- The path lines of a manifest, in order. -/
def pathLines (m : List ManifestLine) : List (List Char) :=
  m.filterMap (fun l => match l with
    | ManifestLine.file p => some p
    | ManifestLine.dur _ => none)

/-- The duration lines of a manifest, in order. -/
def durLines (m : List ManifestLine) : List ℚ :=
  m.filterMap (fun l => match l with
    | ManifestLine.file _ => none
    | ManifestLine.dur d => some d)

/-! ### Validation stages (`thread_map` fan-out / fan-in) -/

/-- A per-item worker (`_resave_single_image_magick` or
`_verify_single_image_ffmpeg`): it returns the image name itself on success
and `None` on any failure, an outcome fully determined by the external
process run for that one item — modelled by the predicate `ok`. -/
def worker (ok : α → Bool) (x : α) : Option α :=
  if ok x then some x else none

/-- One validation stage: `thread_map` maps the worker over the list keeping
input order, then the `None` results are filtered out
(src/vid.py lines 617-626 and 645-654). -/
def runStage (items : List α) (ok : α → Bool) : List α :=
  (items.map (worker ok)).filterMap id

/-- One worker completion during a stage: the worker for item index `i`
finishes and stores its result at index `i` of the result table (an
out-of-range index stores nothing). -/
def stageStep (items : List α) (ok : α → Bool)
    (table : List (Option (Option α))) (i : Nat) : List (Option (Option α)) :=
  match items[i]? with
  | some x => table.set i (some (worker ok x))
  | none => table

/-- The result table of a stage run with an explicit worker-completion
order: `sched` lists the item indices in the order their workers finish. -/
def stageTable (items : List α) (ok : α → Bool) (sched : List Nat) :
    List (Option (Option α)) :=
  sched.foldl (stageStep items ok) (List.replicate items.length none)

/-- The fan-in with an explicit worker-completion order: the stage reads the
completed table out in original index order and keeps the successes.
`thread_map` guarantees exactly this index-keyed collection. -/
def runStageSched (items : List α) (ok : α → Bool) (sched : List Nat) : List α :=
  (stageTable items ok sched).filterMap (fun r => r.bind id)

/-! ### Worker-pool size (`NUM_WORKERS`) -/

/-- `NUM_WORKERS = os.cpu_count() * 2 if os.cpu_count() else 4`
(src/vid.py line 51): `os.cpu_count()` may be unknown (`None`, falsy) and a
count of `0` is falsy too; otherwise the pool size is twice the count. -/
def NUM_WORKERS (cpu_count : Option Nat) : Nat :=
  match cpu_count with
  | some n => if n ≠ 0 then n * 2 else 4
  | none => 4

/-! ### Archive job (`process_single_archive`) and batch (`main`) -/

/-- Why `extract_archive` can fail: missing archive, corrupt container, no
matching entry, or any other extraction error (src/vid.py lines 303-352). -/
inductive ExtractError : Type
  | archiveNotFound
  | badZipFile
  | emptyArchive
  | extractionFailed
deriving DecidableEq, Repr

/-- Everything one run of `process_single_archive` observes about the outside
world: the extraction result (the naturally-sorted surviving relative paths,
or an error), whether `magick` is available and whether the user skipped
reconstruction, the per-item outcomes of the two external validators, and
whether the ffmpeg encode exits with code 0. -/
structure JobSpec : Type where
  name : List Char
  extraction : Except ExtractError (List (List Char))
  magickAvailable : Bool
  skipMagick : Bool
  resaveOk : List Char → Bool
  verifyOk : List Char → Bool
  encodeOk : Bool

/-- Result of one archive job: `True` (success) or `False` (recoverable
failure, the archive is skipped). -/
inductive JobOutcome : Type
  | success
  | recoverableSkip
deriving DecidableEq, Repr

/-- One finished job: its outcome plus whether the scratch directory was
removed.  The whole pipeline runs inside `with tempfile.TemporaryDirectory()`
(src/vid.py line 586), whose context-manager exit deletes the directory on
every path out of the block — including the `return False` paths and the
exceptions caught by the handlers outside the `with`. -/
structure JobRun : Type where
  outcome : JobOutcome
  scratchRemoved : Bool

/-- `process_single_archive` (src/vid.py lines 557-764): extraction errors
and every empty-survivor stage return `False`; the reconstruction stage runs
only when `magick` is available and not skipped; an encode failure raises
`CalledProcessError`, caught at the job boundary (lines 747-757) and turned
into `False`.  All paths leave the `with` block, so the scratch directory is
always removed. -/
def process_single_archive (j : JobSpec) : JobRun :=
  match j.extraction with
  | Except.error _ => JobRun.mk JobOutcome.recoverableSkip true
  | Except.ok extracted =>
      if extracted.isEmpty then JobRun.mk JobOutcome.recoverableSkip true
      else
        let images_after_resave :=
          if j.magickAvailable ∧ ¬ j.skipMagick then runStage extracted j.resaveOk
          else extracted
        if images_after_resave.isEmpty then JobRun.mk JobOutcome.recoverableSkip true
        else
          let final_images := runStage images_after_resave j.verifyOk
          if final_images.isEmpty then JobRun.mk JobOutcome.recoverableSkip true
          else if j.encodeOk then JobRun.mk JobOutcome.success true
          else JobRun.mk JobOutcome.recoverableSkip true

/-- The batch loop of `main` (src/vid.py lines 899-928) with its two loop
accumulators `successful_count` and `failed_files`: each archive is processed
in turn; a success bumps the count, a failure appends the archive's name, and
the loop continues either way. -/
def runBatchAux (acc : Nat × List (List Char)) : List JobSpec → Nat × List (List Char)
  | [] => acc
  | j :: rest =>
      match (process_single_archive j).outcome with
      | JobOutcome.success => runBatchAux (acc.1 + 1, acc.2) rest
      | JobOutcome.recoverableSkip => runBatchAux (acc.1, acc.2 ++ [j.name]) rest

/-- The whole batch: the loop started from `successful_count = 0`,
`failed_files = []`. -/
def runBatch (jobs : List JobSpec) : Nat × List (List Char) :=
  runBatchAux (0, []) jobs

/-- The dependency check plus batch of `main` (src/vid.py lines 774-780 and
899-944): if `ffmpeg -version` fails (binary absent), `sys.exit(1)` aborts
the whole run before any archive is processed; otherwise the batch runs to
completion and its summary is produced. -/
def main_run (ffmpegAvailable : Bool) (jobs : List JobSpec) :
    Except Nat (Nat × List (List Char)) :=
  if ffmpegAvailable then Except.ok (runBatch jobs) else Except.error 1

/-! ### Natural sort (`natural_key`)

`re.split(r"(\d+)", s)` splits a name at the maximal digit runs and keeps
the runs (the captured groups) in the result, so the output alternates
(possibly empty) digit-free pieces with non-empty digit pieces, beginning
and ending with a digit-free piece.  Digits are modelled as the ASCII
digits `'0'..'9'` and `str.lower` as ASCII lowercasing. -/

/-- One component of a natural-sort key: `int(text)` for a digit run,
`text.lower()` for a digit-free run (src/vid.py line 64). -/
inductive NKey : Type
  | num : Nat → NKey
  | str : List Char → NKey
deriving DecidableEq, Repr

/-- Accumulating splitter behind `splitRuns`: `cur` is the reversed current
run and `ph` tells whether that run is a digit run. -/
def srAux : List Char → List Char → Bool → List (List Char)
  | [], cur, ph => if ph then [cur.reverse, []] else [cur.reverse]
  | c :: rest, cur, ph =>
      if c.isDigit = ph then srAux rest (c :: cur) ph
      else cur.reverse :: srAux rest [c] (!ph)

/-- `re.split(r"(\d+)", s)` (src/vid.py line 64). -/
def splitRuns (s : List Char) : List (List Char) := srAux s [] false

/-- `int(text)` for a digit run. -/
def digitsToNat (l : List Char) : Nat :=
  l.foldl (fun acc c => acc * 10 + (c.toNat - '0'.toNat)) 0

/-- `int(text) if text.isdigit() else text.lower()` for one piece of the split. -/
def keyOfPiece (t : List Char) : NKey :=
  if t ≠ [] ∧ t.all Char.isDigit then NKey.num (digitsToNat t)
  else NKey.str (t.map Char.toLower)

/-- `natural_key` (src/vid.py lines 60-64). -/
def natural_key (s : List Char) : List NKey := (splitRuns s).map keyOfPiece

/-- Python string `<`: lexicographic comparison by code point. -/
def strLTb : List Char → List Char → Bool
  | [], [] => false
  | [], _ :: _ => true
  | _ :: _, [] => false
  | c :: cs, d :: ds => if c = d then strLTb cs ds else decide (c < d)

/-- Python `<` on key components.  Comparing an `int` with a `str` raises
`TypeError` in Python; the mixed cases are given the value `false` here and
are proved below never to be consulted between two produced keys, because
produced keys alternate types in lockstep. -/
def keyLTb : NKey → NKey → Bool
  | NKey.num a, NKey.num b => decide (a < b)
  | NKey.str a, NKey.str b => strLTb a b
  | NKey.num _, NKey.str _ => false
  | NKey.str _, NKey.num _ => false

/-- Python list `<` on keys: lexicographic, a strict prefix being smaller. -/
def keysLTb : List NKey → List NKey → Bool
  | [], [] => false
  | [], _ :: _ => true
  | _ :: _, [] => false
  | x :: xs, y :: ys => if x = y then keysLTb xs ys else keyLTb x y

/-- Stable insertion for `sortNatural`: the new element `x` (originally before
every element of the already-sorted tail) passes `y` only when `y`'s key is
strictly smaller. -/
def insertByKey (x : List Char) : List (List Char) → List (List Char)
  | [] => [x]
  | y :: ys =>
      if keysLTb (natural_key y) (natural_key x) then y :: insertByKey x ys
      else x :: y :: ys

/-- `list.sort(key=natural_key)`: a stable sort under the key comparison. -/
def sortNatural (l : List (List Char)) : List (List Char) :=
  l.foldr insertByKey []

/-- Keys that alternate between text and number components: `AltKeys false l`
says `l` starts with a `str` component (or is empty), `AltKeys true l` that it
starts with a `num` component (or is empty).  Every produced key satisfies
`AltKeys false`, so two produced keys agree on component type at every index. -/
inductive AltKeys : Bool → List NKey → Prop
  | nil (b : Bool) : AltKeys b []
  | strk (s : List Char) (l : List NKey) : AltKeys true l → AltKeys false (NKey.str s :: l)
  | numk (n : Nat) (l : List NKey) : AltKeys false l → AltKeys true (NKey.num n :: l)

/-! ## Helper lemmas -/

/-- The fade-out start time is `max 0 _`, so the `fade_out_start_time >= 0`
half of the guard on the fade-out filter is always true. -/
theorem audio_filters_eq (E fi fo : ℚ) :
    audio_filters E fi fo =
      (if 0 < min fi E then [AFade.fadeIn 0 (min fi E)] else [])
        ++ (if 0 < min fo E then
              [AFade.fadeOut (max 0 (E - min fo E)) (min fo E)] else []) := by
  have h : (min fo E > 0 ∧ max 0 (E - min fo E) ≥ 0) ↔ 0 < min fo E :=
    ⟨fun h => h.1, fun h => ⟨h, le_max_left 0 _⟩⟩
  simp only [audio_filters, h, gt_iff_lt]

/-- `barUpdate` never changes the bar's total. -/
theorem barUpdate_total (b : BarState) (t : ℚ) : (barUpdate b t).total = b.total := by
  by_cases h : b.n < t
  · simp [barUpdate, h]
  · simp [barUpdate, h]

/-! ## Claims -/

/-- C1: for every encoder-driver invocation with `N` surviving images and
per-frame duration `d`, the expected total duration `(N+1) * d` is the one
value that caps both audio fade durations and that becomes the total of the
progress indicator created on the first progress line. -/
theorem C1_expected_duration_single_value (N : Nat) (d fi fo t : ℚ) :
    expected_video_duration N d = (N + 1) * d
    ∧ (∀ st din, AFade.fadeIn st din ∈ audio_filters (expected_video_duration N d) fi fo →
        din = min fi ((N + 1) * d))
    ∧ (∀ st dout, AFade.fadeOut st dout ∈ audio_filters (expected_video_duration N d) fi fo →
        dout = min fo ((N + 1) * d))
    ∧ (∀ b, stepLine (expected_video_duration N d) none (FLine.progress t) = some b →
        b.total = (N + 1) * d) := by
  refine ⟨rfl, ?_, ?_, ?_⟩
  · intro st din hmem
    rw [audio_filters_eq] at hmem
    rw [List.mem_append] at hmem
    rcases hmem with h | h <;> split at h <;> simp_all [expected_video_duration]
  · intro st dout hmem
    rw [audio_filters_eq] at hmem
    rw [List.mem_append] at hmem
    rcases hmem with h | h <;> split at h <;> simp_all [expected_video_duration]
  · intro b hb
    simp only [stepLine] at hb
    split at hb
    · rename_i hpos
      have := barUpdate_total (BarState.mk (expected_video_duration N d) 0) t
      simp only [Option.some.injEq] at hb
      rw [← hb] at *
      simp_all [expected_video_duration]
    · exact absurd hb (by simp)

/-- Witness for C1 at `N = 3`, `d = 1/2`, first progress line `time=1`. -/
theorem C1_expected_duration_single_value_witness :
    stepLine (expected_video_duration 3 (1/2)) none (FLine.progress 1)
        = some (BarState.mk 2 1)
    ∧ (BarState.mk 2 1).total = ((3 : Nat) + 1) * (1/2 : ℚ) := by
  have h : stepLine (expected_video_duration 3 (1/2)) none (FLine.progress 1)
      = some (BarState.mk 2 1) := by
    norm_num [stepLine, expected_video_duration, barUpdate]
  exact ⟨h, (C1_expected_duration_single_value 3 (1/2) 2 2 1).2.2.2 _ h⟩

/-- C3: with `E ≥ 0` and configured fades `≥ 0`, each fade is capped at `E`
(`min configured E`), the fade-out starts at `max 0 (E - cap)`, a fade with
zero capped duration is omitted, and when any fade remains the surviving
fades are passed as the single combined `-af` argument. -/
theorem C3_fade_capping (E fi fo : ℚ) (hE : 0 ≤ E) (hfi : 0 ≤ fi) (hfo : 0 ≤ fo) :
    audio_filters E fi fo =
      (if min fi E = 0 then [] else [AFade.fadeIn 0 (min fi E)])
        ++ (if min fo E = 0 then []
            else [AFade.fadeOut (max 0 (E - min fo E)) (min fo E)])
    ∧ (audio_filters E fi fo ≠ [] →
        af_argument E fi fo = some (audio_filters E fi fo))
    ∧ (audio_filters E fi fo = [] → af_argument E fi fo = none) := by
  have hin : 0 < min fi E ↔ ¬ (min fi E = 0) := by
    constructor
    · intro h h0
      exact absurd (h0 ▸ h) (lt_irrefl 0)
    · intro h
      exact lt_of_le_of_ne (le_min hfi hE) (Ne.symm h)
  have hout : 0 < min fo E ↔ ¬ (min fo E = 0) := by
    constructor
    · intro h h0
      exact absurd (h0 ▸ h) (lt_irrefl 0)
    · intro h
      exact lt_of_le_of_ne (le_min hfo hE) (Ne.symm h)
  refine ⟨?_, ?_, ?_⟩
  · rw [audio_filters_eq]
    simp only [hin, hout, ite_not]
  · intro hne
    simp [af_argument, hne]
  · intro hempty
    simp [af_argument, hempty]

/-- Witness for C3: the spec's two numeric examples, `E=10, fades 2/2` giving
fade-out start `8`, and `E=1, fadeOut=2` capped to `1` starting at `0`. -/
theorem C3_fade_capping_witness :
    audio_filters 10 2 2 = [AFade.fadeIn 0 2, AFade.fadeOut 8 2]
    ∧ audio_filters 1 2 2 = [AFade.fadeIn 0 1, AFade.fadeOut 0 1]
    ∧ af_argument 10 2 2 = some [AFade.fadeIn 0 2, AFade.fadeOut 8 2] := by
  have h10 := C3_fade_capping 10 2 2 (by norm_num) (by norm_num) (by norm_num)
  have h1 := C3_fade_capping 1 2 2 (by norm_num) (by norm_num) (by norm_num)
  have e10 : audio_filters 10 2 2 = [AFade.fadeIn 0 2, AFade.fadeOut 8 2] := by
    rw [h10.1]; norm_num
  have e1 : audio_filters 1 2 2 = [AFade.fadeIn 0 1, AFade.fadeOut 0 1] := by
    rw [h1.1]; norm_num
  refine ⟨e10, e1, ?_⟩
  rw [h10.2.1 (by rw [e10]; simp), e10]

/-- C4: the progress indicator is monotone: a reported time strictly above
the current position moves the position to exactly that time, a time at or
below it changes nothing, and the position never decreases; feeding times
`1, 0.5, 2` yields positions `1, 1, 2`. -/
theorem C4_progress_monotonic (b : BarState) (t : ℚ) :
    (b.n < t → barUpdate b t = BarState.mk b.total t)
    ∧ (t ≤ b.n → barUpdate b t = b)
    ∧ b.n ≤ (barUpdate b t).n
    ∧ runLines 2 [FLine.progress 1] = some (BarState.mk 2 1)
    ∧ runLines 2 [FLine.progress 1, FLine.progress (1/2)] = some (BarState.mk 2 1)
    ∧ runLines 2 [FLine.progress 1, FLine.progress (1/2), FLine.progress 2]
        = some (BarState.mk 2 2) := by
  have hup : b.n < t → barUpdate b t = BarState.mk b.total t := by
    intro h
    have hd : max 0 (t - b.n) = t - b.n := max_eq_right (by linarith)
    simp only [barUpdate, hd]
    rw [if_pos (Or.inr h)]
    congr 1
    ring
  have hkeep : t ≤ b.n → barUpdate b t = b := by
    intro h
    have hd : max 0 (t - b.n) = 0 := max_eq_left (by linarith)
    simp only [barUpdate, hd]
    rw [if_neg]
    push_neg
    exact ⟨le_refl 0, h⟩
  refine ⟨hup, hkeep, ?_, ?_, ?_, ?_⟩
  · by_cases h : b.n < t
    · rw [hup h]; exact le_of_lt h
    · rw [hkeep (not_lt.mp h)]
  · norm_num [runLines, stepLine, barUpdate, List.foldl]
  · norm_num [runLines, stepLine, barUpdate, List.foldl]
  · norm_num [runLines, stepLine, barUpdate, List.foldl]

/-- Witness for C4 at position `1`, reported time `2`. -/
theorem C4_progress_monotonic_witness :
    (BarState.mk 4 1).n < 2 ∧ barUpdate (BarState.mk 4 1) 2 = BarState.mk 4 2 :=
  ⟨by norm_num, (C4_progress_monotonic (BarState.mk 4 1) 2).1 (by norm_num)⟩

/-- C10: when a progress line was parsed (the bar exists) and the expected
duration is positive, the epilogue of the encoder driver sets the bar to the
full expected duration for every exit code, and only afterwards does a
non-zero code produce the error. -/
theorem C10_bar_forced_full (E : ℚ) (b : BarState) (code : Int) (hE : 0 < E) :
    (ffmpegEpilogue E (some b) code).1 = some (BarState.mk b.total E)
    ∧ (code ≠ 0 → (ffmpegEpilogue E (some b) code).2 = Except.error code) := by
  constructor
  · simp [ffmpegEpilogue, finishBar, hE]
  · intro h
    simp [ffmpegEpilogue, h]

/-- Witness for C10: expected duration `2`, exit code `1` (non-zero) — the
indicator still reads `2/2`. -/
theorem C10_bar_forced_full_witness :
    (0 : ℚ) < 2
    ∧ (ffmpegEpilogue 2 (some (BarState.mk 2 (3/2))) 1).1 = some (BarState.mk 2 2) :=
  ⟨by norm_num, (C10_bar_forced_full 2 (BarState.mk 2 (3/2)) 1 (by norm_num)).1⟩

/-- In a duplicate-free list, a member occurs exactly once (stated for any
lawful `BEq` so it applies at the instance `List.count` picks up here). -/
theorem count_one_of_nodup {α : Type} [BEq α] [LawfulBEq α] (a : α) (l : List α)
    (hnd : l.Nodup) (hmem : a ∈ l) : l.count a = 1 := by
  induction l with
  | nil => cases hmem
  | cons x xs ih =>
      rw [List.count_cons]
      rcases List.mem_cons.mp hmem with rfl | hx
      · have hnot : a ∉ xs := by
          intro hc
          exact (List.nodup_cons.mp hnd).1 hc
        have hz : xs.count a = 0 := by
          rw [List.count_eq_zero]
          exact hnot
        simp [hz]
      · have h1 : xs.count a = 1 := ih (List.nodup_cons.mp hnd).2 hx
        have hxa : ¬ x = a := by
          intro hc
          subst hc
          exact (List.nodup_cons.mp hnd).1 hx
        simp [h1, hxa]

/-- The path lines contributed by the per-image loop of the manifest builder:
one per image, in input order. -/
theorem pathLines_body (base : List Char) (d : ℚ) (images : List (List Char)) :
    pathLines ((images.map (fun img =>
        [ManifestLine.file (manifestPath base img), ManifestLine.dur d])).flatten)
      = images.map (manifestPath base) := by
  induction images with
  | nil => rfl
  | cons a l ih =>
      simp only [List.map_cons, List.flatten_cons, pathLines, List.filterMap_append,
        List.filterMap_cons] at *
      simp [ih]

/-- The duration lines contributed by the per-image loop: one per image. -/
theorem durLines_body (base : List Char) (d : ℚ) (images : List (List Char)) :
    durLines ((images.map (fun img =>
        [ManifestLine.file (manifestPath base img), ManifestLine.dur d])).flatten)
      = List.replicate images.length d := by
  induction images with
  | nil => rfl
  | cons a l ih =>
      simp only [List.map_cons, List.flatten_cons, durLines, List.filterMap_append,
        List.filterMap_cons] at *
      simp [ih, List.replicate_succ]

/-- C2: for a non-empty image list whose processed paths are distinct, the
manifest has exactly `N` duration lines and `N+1` path lines, the path lines
are the input paths in input order plus the repeated last path, the last path
occurs exactly twice (consecutively as path lines), and the manifest ends
`file last, duration d, file last` — the final repetition carrying no
duration line. -/
theorem C2_manifest_shape (images : List (List Char)) (base : List Char) (d : ℚ)
    (hne : images ≠ [])
    (hnodup : (images.map (manifestPath base)).Nodup) :
    (durLines (write_ffmpeg_input_list images base d)).length = images.length
    ∧ (pathLines (write_ffmpeg_input_list images base d)).length = images.length + 1
    ∧ pathLines (write_ffmpeg_input_list images base d)
        = images.map (manifestPath base) ++ [manifestPath base (images.getLast hne)]
    ∧ (pathLines (write_ffmpeg_input_list images base d)).count
        (manifestPath base (images.getLast hne)) = 2
    ∧ ∃ pre, write_ffmpeg_input_list images base d
        = pre ++ [ManifestLine.file (manifestPath base (images.getLast hne)),
                  ManifestLine.dur d,
                  ManifestLine.file (manifestPath base (images.getLast hne))] := by
  have hlast : images.getLast? = some (images.getLast hne) :=
    List.getLast?_eq_getLast images hne
  have hm : write_ffmpeg_input_list images base d
      = (images.map (fun img =>
          [ManifestLine.file (manifestPath base img), ManifestLine.dur d])).flatten
        ++ [ManifestLine.file (manifestPath base (images.getLast hne))] := by
    simp [write_ffmpeg_input_list, hlast]
  have hpaths : pathLines (write_ffmpeg_input_list images base d)
      = images.map (manifestPath base) ++ [manifestPath base (images.getLast hne)] := by
    rw [hm]
    simp only [pathLines, List.filterMap_append] at *
    rw [show (images.map (fun img =>
        [ManifestLine.file (manifestPath base img), ManifestLine.dur d])).flatten.filterMap
          (fun l => match l with
            | ManifestLine.file p => some p
            | ManifestLine.dur _ => none) = images.map (manifestPath base) from
      pathLines_body base d images]
    rfl
  have hdurs : durLines (write_ffmpeg_input_list images base d)
      = List.replicate images.length d := by
    rw [hm]
    simp only [durLines, List.filterMap_append] at *
    rw [show (images.map (fun img =>
        [ManifestLine.file (manifestPath base img), ManifestLine.dur d])).flatten.filterMap
          (fun l => match l with
            | ManifestLine.file _ => none
            | ManifestLine.dur d => some d) = List.replicate images.length d from
      durLines_body base d images]
    simp
  have hmem : manifestPath base (images.getLast hne) ∈ images.map (manifestPath base) :=
    List.mem_map_of_mem (manifestPath base) (List.getLast_mem hne)
  refine ⟨?_, ?_, hpaths, ?_, ?_⟩
  · rw [hdurs]; simp
  · rw [hpaths]; simp
  · have h1 := count_one_of_nodup (manifestPath base (images.getLast hne))
      (images.map (manifestPath base)) hnodup hmem
    have h2 : List.count (manifestPath base (images.getLast hne))
        [manifestPath base (images.getLast hne)] = 1 := by simp
    rw [hpaths, List.count_append, h1, h2]
  · refine ⟨(images.dropLast.map (fun img =>
        [ManifestLine.file (manifestPath base img), ManifestLine.dur d])).flatten, ?_⟩
    have himg : images = images.dropLast ++ [images.getLast hne] :=
      (List.dropLast_append_getLast hne).symm
    rw [hm]
    rw [show images.map (fun img =>
          [ManifestLine.file (manifestPath base img), ManifestLine.dur d])
        = (images.dropLast ++ [images.getLast hne]).map (fun img =>
          [ManifestLine.file (manifestPath base img), ManifestLine.dur d]) from by
      rw [← himg]]
    simp [List.map_append, List.flatten_append]

/-- Witness for C2: two images under base folder `/t`. -/
theorem C2_manifest_shape_witness :
    (["a.png".toList, "b.png".toList] : List (List Char)) ≠ []
    ∧ (durLines (write_ffmpeg_input_list ["a.png".toList, "b.png".toList]
        "/t".toList (1/2))).length = 2 := by
  have h : (["a.png".toList, "b.png".toList] : List (List Char)) ≠ [] := by simp
  refine ⟨h, ?_⟩
  have := (C2_manifest_shape ["a.png".toList, "b.png".toList] "/t".toList (1/2) h
    (by decide)).1
  simpa using this

/-- `runStage` is exactly an order-preserving filter of its input. -/
theorem runStage_eq_filter {α : Type} (items : List α) (ok : α → Bool) :
    runStage items ok = items.filter ok := by
  induction items with
  | nil => rfl
  | cons a l ih =>
      simp only [runStage, List.map_cons, List.filterMap_cons, worker] at *
      by_cases h : ok a <;> simp [h, List.filter_cons, ih]

/-- Each cell of the fan-in table after the workers completed in order
`sched`: a scheduled, in-range index holds its own item's worker result;
every other cell keeps its initial value — whatever order `sched` has. -/
theorem stageTable_getElem {α : Type} (items : List α) (ok : α → Bool) :
    ∀ (sched : List Nat) (init : List (Option (Option α))),
      init.length = items.length → ∀ j : Nat,
      (sched.foldl (stageStep items ok) init)[j]?
        = if j ∈ sched ∧ j < items.length
          then items[j]?.map (fun x => some (worker ok x))
          else init[j]? := by
  intro sched
  induction sched with
  | nil =>
      intro init hlen j
      simp
  | cons i rest ih =>
      intro init hlen j
      simp only [List.foldl_cons]
      have hlen' : (stageStep items ok init i).length = items.length := by
        unfold stageStep
        cases h : items[i]? <;> simp [hlen]
      rw [ih _ hlen' j]
      by_cases hjrest : j ∈ rest ∧ j < items.length
      · rw [if_pos hjrest, if_pos ⟨List.mem_cons_of_mem i hjrest.1, hjrest.2⟩]
      · rw [if_neg hjrest]
        by_cases hji : j = i
        · subst hji
          by_cases hjn : j < items.length
          · have hx : items[j]? = some (items.get ⟨j, hjn⟩) := by
              rw [List.getElem?_eq_getElem hjn]
              rfl
            rw [if_pos ⟨List.mem_cons_self j rest, hjn⟩, hx]
            unfold stageStep
            rw [hx]
            simp only
            rw [List.getElem?_set_eq_of_lt _ (hlen ▸ hjn)]
            rfl
          · have hx : items[j]? = none := List.getElem?_eq_none (not_lt.mp hjn)
            rw [hx]
            rw [if_neg (fun hc => hjn hc.2)]
            unfold stageStep
            rw [hx]
        · have hcond : ¬ (j ∈ i :: rest ∧ j < items.length) := by
            intro hc
            rcases List.mem_cons.mp hc.1 with h | h
            · exact hji h
            · exact hjrest ⟨h, hc.2⟩
          rw [if_neg hcond]
          unfold stageStep
          cases hx : items[i]? with
          | none => rfl
          | some x => exact List.getElem?_set_ne (fun hc => hji hc.symm)

/-- With a completion order that is a permutation of the item indices, the
scheduled fan-in gives the very same survivor list as the order-preserving
stage. -/
theorem runStageSched_eq {α : Type} (items : List α) (ok : α → Bool) (sched : List Nat)
    (hperm : sched.Perm (List.range items.length)) :
    runStageSched items ok sched = runStage items ok := by
  have htab : stageTable items ok sched = items.map (fun x => some (worker ok x)) := by
    unfold stageTable
    apply List.ext_getElem?
    intro j
    rw [stageTable_getElem items ok sched _ (by simp) j]
    by_cases hj : j < items.length
    · have hmem : j ∈ sched := hperm.mem_iff.mpr (List.mem_range.mpr hj)
      rw [if_pos ⟨hmem, hj⟩, List.getElem?_map]
    · rw [if_neg (fun hc => hj hc.2)]
      have h1 : (List.replicate items.length (none : Option (Option α)))[j]? = none :=
        List.getElem?_eq_none (by simpa using not_lt.mp hj)
      have h2 : (items.map (fun x => some (worker ok x)))[j]? = none :=
        List.getElem?_eq_none (by simpa using not_lt.mp hj)
      rw [h1, h2]
  unfold runStageSched runStage
  rw [htab]
  simp only [List.filterMap_map]
  rfl

/-- C5: each validation stage returns exactly the surviving items, as an
order-preserving subsequence of its input, independently of worker
completion order, and an item's survival depends only on its own presence
and its own outcome. -/
theorem C5_stage_isolation {α : Type} (items : List α) (ok : α → Bool)
    (sched : List Nat) (x : α) (hperm : sched.Perm (List.range items.length)) :
    runStage items ok = items.filter ok
    ∧ (runStage items ok).Sublist items
    ∧ runStageSched items ok sched = runStage items ok
    ∧ (x ∈ runStage items ok ↔ x ∈ items ∧ ok x = true) := by
  refine ⟨runStage_eq_filter items ok, ?_, runStageSched_eq items ok sched hperm, ?_⟩
  · rw [runStage_eq_filter]
    exact List.filter_sublist items
  · rw [runStage_eq_filter]
    exact List.mem_filter

/-- Witness for C5: the spec's example — the validator fails on item 3 of 5,
with workers finishing in the shuffled order `[4,2,0,1,3]`; the stage returns
the other four items in their original order. -/
theorem C5_stage_isolation_witness :
    ([4, 2, 0, 1, 3] : List Nat).Perm (List.range 5)
    ∧ runStageSched
        ["p1".toList, "p2".toList, "p3".toList, "p4".toList, "p5".toList]
        (fun s => !(s == "p3".toList)) [4, 2, 0, 1, 3]
      = ["p1".toList, "p2".toList, "p4".toList, "p5".toList] := by
  have hp : ([4, 2, 0, 1, 3] : List Nat).Perm (List.range 5) := by decide
  have h := (C5_stage_isolation
      ["p1".toList, "p2".toList, "p3".toList, "p4".toList, "p5".toList]
      (fun s => !(s == "p3".toList)) [4, 2, 0, 1, 3] "p1".toList hp).2.2.1
  refine ⟨hp, ?_⟩
  rw [h]
  decide

/-- Starting the batch loop with accumulated results shifts the final ones:
the loop never loses the work already recorded. -/
theorem runBatchAux_shift (jobs : List JobSpec) :
    ∀ (c : Nat) (names : List (List Char)),
      runBatchAux (c, names) jobs
        = (c + (runBatchAux (0, []) jobs).1, names ++ (runBatchAux (0, []) jobs).2) := by
  induction jobs with
  | nil =>
      intro c names
      simp [runBatchAux]
  | cons j rest ih =>
      intro c names
      cases h : (process_single_archive j).outcome with
      | success =>
          have l1 : runBatchAux (c, names) (j :: rest) = runBatchAux (c + 1, names) rest := by
            simp [runBatchAux, h]
          have l2 : runBatchAux (0, []) (j :: rest) = runBatchAux (0 + 1, []) rest := by
            simp [runBatchAux, h]
          rw [l1, l2, ih (c + 1) names, ih (0 + 1) []]
          simp [Nat.add_assoc]
      | recoverableSkip =>
          have l1 : runBatchAux (c, names) (j :: rest)
              = runBatchAux (c, names ++ [j.name]) rest := by
            simp [runBatchAux, h]
          have l2 : runBatchAux (0, []) (j :: rest)
              = runBatchAux (0, [] ++ [j.name]) rest := by
            simp [runBatchAux, h]
          rw [l1, l2, ih c (names ++ [j.name]), ih 0 ([] ++ [j.name])]
          simp

/-- The scratch directory is removed on every path out of a job. -/
theorem scratch_always_removed (j : JobSpec) :
    (process_single_archive j).scratchRemoved = true := by
  cases hx : j.extraction with
  | error e => simp [process_single_archive, hx]
  | ok imgs =>
      simp only [process_single_archive, hx]
      split_ifs <;> rfl

/-- C6: a job in which some stage produced zero survivors (nothing extracted,
or reconstruction or verification dropped everything) ends in a recoverable
skip, its scratch directory is still removed, and the batch records the
archive as failed and still processes every remaining archive. -/
theorem C6_empty_survivors_skip (j : JobSpec) (rest : List JobSpec)
    (hempty :
      (∃ e, j.extraction = Except.error e)
      ∨ ∃ imgs, j.extraction = Except.ok imgs ∧
          (imgs = []
            ∨ (j.magickAvailable ∧ ¬ j.skipMagick ∧ runStage imgs j.resaveOk = [])
            ∨ runStage
                (if j.magickAvailable ∧ ¬ j.skipMagick
                 then runStage imgs j.resaveOk else imgs) j.verifyOk = [])) :
    (process_single_archive j).outcome = JobOutcome.recoverableSkip
    ∧ (process_single_archive j).scratchRemoved = true
    ∧ runBatch (j :: rest) = ((runBatch rest).1, j.name :: (runBatch rest).2) := by
  have hout : (process_single_archive j).outcome = JobOutcome.recoverableSkip := by
    rcases hempty with ⟨e, he⟩ | ⟨imgs, hok, hcase⟩
    · simp [process_single_archive, he]
    · simp only [process_single_archive, hok]
      rcases hcase with rfl | ⟨hm, hs, hre⟩ | hvf
      · simp
      · split_ifs <;> simp_all [List.isEmpty_iff]
      · by_cases hcond : j.magickAvailable = true ∧ ¬ j.skipMagick = true
        · rw [if_pos hcond] at hvf
          split_ifs <;> simp_all [List.isEmpty_iff]
        · rw [if_neg hcond] at hvf
          split_ifs <;> simp_all [List.isEmpty_iff]
  refine ⟨hout, scratch_always_removed j, ?_⟩
  have l2 : runBatchAux (0, []) (j :: rest) = runBatchAux (0, [] ++ [j.name]) rest := by
    simp [runBatchAux, hout]
  simp only [runBatch]
  rw [l2, runBatchAux_shift rest 0 ([] ++ [j.name])]
  simp

/-- Witness for C6: a job whose verification stage rejects every image, ahead
of one healthy job; the batch reports one success and the failed name. -/
theorem C6_empty_survivors_skip_witness :
    (process_single_archive
        (JobSpec.mk "bad.cbz".toList (Except.ok ["a.png".toList]) false true
          (fun _ => true) (fun _ => false) true)).outcome
      = JobOutcome.recoverableSkip
    ∧ runBatch
        [JobSpec.mk "bad.cbz".toList (Except.ok ["a.png".toList]) false true
          (fun _ => true) (fun _ => false) true,
         JobSpec.mk "good.cbz".toList (Except.ok ["b.png".toList]) false true
          (fun _ => true) (fun _ => true) true]
      = (1, ["bad.cbz".toList]) := by
  have h := C6_empty_survivors_skip
    (JobSpec.mk "bad.cbz".toList (Except.ok ["a.png".toList]) false true
      (fun _ => true) (fun _ => false) true)
    [JobSpec.mk "good.cbz".toList (Except.ok ["b.png".toList]) false true
      (fun _ => true) (fun _ => true) true]
    (Or.inr ⟨["a.png".toList], rfl, Or.inr (Or.inr (by decide))⟩)
  refine ⟨h.1, ?_⟩
  rw [h.2.2]
  decide

/-- C7: an absent encoder binary is fatal to the whole run — `main` exits
with status 1 before any archive is processed; conversely any run that did
produce a batch summary had the encoder available, so an absent encoder
never shows up as one skipped archive in a continuing batch. -/
theorem C7_missing_encoder_fatal (jobs : List JobSpec) (r : Nat × List (List Char)) :
    main_run false jobs = Except.error 1
    ∧ (∀ avail, main_run avail jobs = Except.ok r → avail = true) := by
  constructor
  · rfl
  · intro avail h
    cases avail
    · simp [main_run] at h
    · rfl

/-- Witness for C7: a run with the encoder present completes its (empty)
batch, and the theorem confirms availability from that completed batch. -/
theorem C7_missing_encoder_fatal_witness :
    main_run true [] = Except.ok ((0 : Nat), ([] : List (List Char)))
    ∧ true = true :=
  ⟨rfl, (C7_missing_encoder_fatal [] (0, [])).2 true rfl⟩

/-- C8 counterexample: with one CPU reported, the pool has 2 workers — the
claimed minimum of 4 does not hold. -/
theorem C8_pool_size_counterexample :
    NUM_WORKERS (some 1) = 2 ∧ ¬ (4 ≤ NUM_WORKERS (some 1)) := by
  decide

/-- C8 (amended): the pool size is exactly twice the available parallelism
when the CPU count is known and non-zero, and 4 only when the count is
unknown (or reported as zero); there is no minimum-4 floor. -/
theorem C8_pool_size (n : Nat) (hn : n ≠ 0) :
    NUM_WORKERS (some n) = 2 * n
    ∧ NUM_WORKERS none = 4
    ∧ NUM_WORKERS (some 0) = 4 := by
  refine ⟨?_, rfl, rfl⟩
  simp [NUM_WORKERS, hn, Nat.mul_comm]

/-- Witness for C8 at 3 CPUs. -/
theorem C8_pool_size_witness :
    (3 : Nat) ≠ 0 ∧ NUM_WORKERS (some 3) = 2 * 3 :=
  ⟨by decide, (C8_pool_size 3 (by decide)).1⟩

/-! ### Natural-sort order lemmas -/

theorem strLTb_irrefl (a : List Char) : strLTb a a = false := by
  induction a with
  | nil => rfl
  | cons c cs ih => simp [strLTb, ih]

theorem strLTb_trans :
    ∀ a b c : List Char, strLTb a b = true → strLTb b c = true → strLTb a c = true := by
  intro a
  induction a with
  | nil =>
      intro b c hab hbc
      cases c with
      | nil =>
          cases b with
          | nil => exact absurd hab (by simp [strLTb])
          | cons y ys => exact absurd hbc (by simp [strLTb])
      | cons z zs => rfl
  | cons x xs ih =>
      intro b c hab hbc
      cases b with
      | nil => exact absurd hab (by simp [strLTb])
      | cons y ys =>
          cases c with
          | nil => exact absurd hbc (by simp [strLTb])
          | cons z zs =>
              simp only [strLTb] at hab hbc ⊢
              by_cases hxy : x = y
              · subst hxy
                rw [if_pos rfl] at hab
                by_cases hyz : x = z
                · subst hyz
                  rw [if_pos rfl] at hbc ⊢
                  exact ih ys zs hab hbc
                · rw [if_neg hyz] at hbc ⊢
                  exact hbc
              · rw [if_neg hxy] at hab
                have hxylt : x < y := of_decide_eq_true hab
                by_cases hyz : y = z
                · subst hyz
                  rw [if_neg hxy]
                  exact hab
                · rw [if_neg hyz] at hbc
                  have hyzlt : y < z := of_decide_eq_true hbc
                  have hxz : x < z := lt_trans hxylt hyzlt
                  rw [if_neg (ne_of_lt hxz)]
                  exact decide_eq_true hxz

theorem strLTb_asymm :
    ∀ a b : List Char, strLTb a b = true → strLTb b a = false := by
  intro a
  induction a with
  | nil =>
      intro b hab
      cases b with
      | nil => exact absurd hab (by simp [strLTb])
      | cons y ys => rfl
  | cons x xs ih =>
      intro b hab
      cases b with
      | nil => exact absurd hab (by simp [strLTb])
      | cons y ys =>
          simp only [strLTb] at hab ⊢
          by_cases hxy : x = y
          · subst hxy
            rw [if_pos rfl] at hab ⊢
            exact ih ys hab
          · rw [if_neg hxy] at hab
            have hlt : x < y := of_decide_eq_true hab
            rw [if_neg (fun hc => hxy hc.symm)]
            exact decide_eq_false (not_lt.mpr (le_of_lt hlt))

theorem strLTb_tricho :
    ∀ a b : List Char, a = b ∨ strLTb a b = true ∨ strLTb b a = true := by
  intro a
  induction a with
  | nil =>
      intro b
      cases b with
      | nil => exact Or.inl rfl
      | cons y ys => exact Or.inr (Or.inl rfl)
  | cons x xs ih =>
      intro b
      cases b with
      | nil => exact Or.inr (Or.inr rfl)
      | cons y ys =>
          by_cases hxy : x = y
          · subst hxy
            rcases ih ys with h | h | h
            · exact Or.inl (by rw [h])
            · refine Or.inr (Or.inl ?_)
              simp only [strLTb]
              simpa using h
            · refine Or.inr (Or.inr ?_)
              simp only [strLTb]
              simpa using h
          · rcases lt_trichotomy x y with h | h | h
            · refine Or.inr (Or.inl ?_)
              simp only [strLTb]
              rw [if_neg hxy]
              exact decide_eq_true h
            · exact absurd h hxy
            · refine Or.inr (Or.inr ?_)
              simp only [strLTb]
              rw [if_neg (fun hc => hxy hc.symm)]
              exact decide_eq_true h

theorem keyLTb_trans :
    ∀ x y z : NKey, keyLTb x y = true → keyLTb y z = true → keyLTb x z = true := by
  intro x y z hxy hyz
  cases x <;> cases y <;> simp [keyLTb] at hxy <;> cases z <;> simp [keyLTb] at hyz ⊢
  · omega
  · exact strLTb_trans _ _ _ hxy hyz

theorem keyLTb_asymm :
    ∀ x y : NKey, keyLTb x y = true → keyLTb y x = false := by
  intro x y hxy
  cases x <;> cases y <;> simp [keyLTb] at hxy ⊢
  · omega
  · exact strLTb_asymm _ _ hxy

theorem keysLTb_trans :
    ∀ xs ys zs : List NKey,
      keysLTb xs ys = true → keysLTb ys zs = true → keysLTb xs zs = true := by
  intro xs
  induction xs with
  | nil =>
      intro ys zs h1 h2
      cases zs with
      | nil =>
          cases ys with
          | nil => exact absurd h1 (by simp [keysLTb])
          | cons y ys' => exact absurd h2 (by simp [keysLTb])
      | cons z zs' => rfl
  | cons x xs' ih =>
      intro ys zs h1 h2
      cases ys with
      | nil => exact absurd h1 (by simp [keysLTb])
      | cons y ys' =>
          cases zs with
          | nil => exact absurd h2 (by simp [keysLTb])
          | cons z zs' =>
              simp only [keysLTb] at h1 h2 ⊢
              by_cases hxy : x = y
              · subst hxy
                rw [if_pos rfl] at h1
                by_cases hyz : x = z
                · subst hyz
                  rw [if_pos rfl] at h2 ⊢
                  exact ih ys' zs' h1 h2
                · rw [if_neg hyz] at h2 ⊢
                  exact h2
              · rw [if_neg hxy] at h1
                by_cases hyz : y = z
                · subst hyz
                  rw [if_neg hxy]
                  exact h1
                · rw [if_neg hyz] at h2
                  have hxz : keyLTb x z = true := keyLTb_trans x y z h1 h2
                  have hne : x ≠ z := by
                    intro hc
                    subst hc
                    have hfalse := keyLTb_asymm x y h1
                    rw [h2] at hfalse
                    cases hfalse
                  rw [if_neg hne]
                  exact hxz

theorem keysLTb_asymm :
    ∀ xs ys : List NKey, keysLTb xs ys = true → keysLTb ys xs = false := by
  intro xs
  induction xs with
  | nil =>
      intro ys h
      cases ys with
      | nil => exact absurd h (by simp [keysLTb])
      | cons y ys' => rfl
  | cons x xs' ih =>
      intro ys h
      cases ys with
      | nil => exact absurd h (by simp [keysLTb])
      | cons y ys' =>
          simp only [keysLTb] at h ⊢
          by_cases hxy : x = y
          · subst hxy
            rw [if_pos rfl] at h ⊢
            exact ih ys' h
          · rw [if_neg hxy] at h
            rw [if_neg (fun hc => hxy hc.symm)]
            exact keyLTb_asymm x y h

/-- Between two alternating key lists of the same phase, the comparison is
total: the mixed `int`/`str` cases of `keyLTb` are never consulted. -/
theorem keysLTb_tricho_alt :
    ∀ (xs : List NKey) (b : Bool) (ys : List NKey),
      AltKeys b xs → AltKeys b ys →
      xs = ys ∨ keysLTb xs ys = true ∨ keysLTb ys xs = true := by
  intro xs
  induction xs with
  | nil =>
      intro b ys _ _
      cases ys with
      | nil => exact Or.inl rfl
      | cons y ys' => exact Or.inr (Or.inl rfl)
  | cons x xs' ih =>
      intro b ys hx hy
      cases ys with
      | nil => exact Or.inr (Or.inr rfl)
      | cons y ys' =>
          by_cases hxy : x = y
          · subst hxy
            have htails : ∃ b', AltKeys b' xs' ∧ AltKeys b' ys' := by
              cases hx with
              | strk s l hl =>
                  cases hy with
                  | strk s2 l2 hl2 => exact ⟨true, hl, hl2⟩
              | numk n l hl =>
                  cases hy with
                  | numk n2 l2 hl2 => exact ⟨false, hl, hl2⟩
            obtain ⟨b', h1, h2⟩ := htails
            rcases ih b' ys' h1 h2 with h | h | h
            · exact Or.inl (by rw [h])
            · refine Or.inr (Or.inl ?_)
              simp only [keysLTb]
              simpa using h
            · refine Or.inr (Or.inr ?_)
              simp only [keysLTb]
              simpa using h
          · have hsame : (∃ a c, x = NKey.num a ∧ y = NKey.num c)
                ∨ (∃ s t, x = NKey.str s ∧ y = NKey.str t) := by
              cases hx with
              | strk s l hl =>
                  cases hy with
                  | strk t l2 hl2 => exact Or.inr ⟨s, t, rfl, rfl⟩
              | numk a l hl =>
                  cases hy with
                  | numk c l2 hl2 => exact Or.inl ⟨a, c, rfl, rfl⟩
            rcases hsame with ⟨a, c, rfl, rfl⟩ | ⟨s, t, rfl, rfl⟩
            · have hac : a ≠ c := fun hc => hxy (by rw [hc])
              rcases Nat.lt_trichotomy a c with h | h | h
              · refine Or.inr (Or.inl ?_)
                simp only [keysLTb]
                rw [if_neg hxy]
                simp [keyLTb, h]
              · exact absurd h hac
              · refine Or.inr (Or.inr ?_)
                simp only [keysLTb]
                rw [if_neg (fun hc => hxy hc.symm)]
                simp [keyLTb, h]
            · rcases strLTb_tricho s t with h | h | h
              · exact absurd (by rw [h]) hxy
              · refine Or.inr (Or.inl ?_)
                simp only [keysLTb]
                rw [if_neg hxy]
                simp [keyLTb, h]
              · refine Or.inr (Or.inr ?_)
                simp only [keysLTb]
                rw [if_neg (fun hc => hxy hc.symm)]
                simp [keyLTb, h]

theorem keyOfPiece_num (t : List Char) (hne : t ≠ []) (hall : t.all Char.isDigit = true) :
    keyOfPiece t = NKey.num (digitsToNat t) := by
  simp [keyOfPiece, hne, hall]

theorem keyOfPiece_str (t : List Char) (hall : t.all (fun c => !c.isDigit) = true) :
    keyOfPiece t = NKey.str (t.map Char.toLower) := by
  cases t with
  | nil => simp [keyOfPiece]
  | cons c cs =>
      have hc : c.isDigit = false := by
        have := (List.all_eq_true.mp hall) c (List.mem_cons_self c cs)
        simpa using this
      simp [keyOfPiece, List.all_cons, hc]

/-- The split of a name always yields keys alternating in phase with the
current run: a digit run in progress heads a `num`-first key list, a text
run a `str`-first one. -/
theorem srAux_alt :
    ∀ (s cur : List Char) (ph : Bool),
      (ph = true → cur ≠ [] ∧ cur.all Char.isDigit = true) →
      (ph = false → cur.all (fun c => !c.isDigit) = true) →
      AltKeys ph ((srAux s cur ph).map keyOfPiece) := by
  intro s
  induction s with
  | nil =>
      intro cur ph hd ht
      cases ph with
      | true =>
          obtain ⟨hne, hall⟩ := hd rfl
          have hsr : srAux [] cur true = [cur.reverse, []] := by simp [srAux]
          rw [hsr, List.map_cons, List.map_cons, List.map_nil]
          rw [keyOfPiece_num _ (by simpa using hne) (by simpa using hall)]
          rw [show keyOfPiece [] = NKey.str [] from rfl]
          exact AltKeys.numk _ _ (AltKeys.strk _ _ (AltKeys.nil true))
      | false =>
          have hall := ht rfl
          have hsr : srAux [] cur false = [cur.reverse] := by simp [srAux]
          rw [hsr, List.map_cons, List.map_nil]
          rw [keyOfPiece_str _ (by simpa using hall)]
          exact AltKeys.strk _ _ (AltKeys.nil true)
  | cons c rest ih =>
      intro cur ph hd ht
      cases ph with
      | true =>
          by_cases hc : c.isDigit = true
          · rw [show srAux (c :: rest) cur true = srAux rest (c :: cur) true from by
              simp [srAux, hc]]
            apply ih
            · intro _
              obtain ⟨hne, hall⟩ := hd rfl
              exact ⟨by simp, by simp [List.all_cons, hall, hc]⟩
            · intro h
              cases h
          · have hcf : c.isDigit = false := by simpa using hc
            rw [show srAux (c :: rest) cur true = cur.reverse :: srAux rest [c] false from by
              simp [srAux, hcf]]
            obtain ⟨hne, hall⟩ := hd rfl
            rw [List.map_cons, keyOfPiece_num _ (by simpa using hne) (by simpa using hall)]
            refine AltKeys.numk _ _ ?_
            apply ih
            · intro h
              cases h
            · intro _
              simp [hcf]
      | false =>
          by_cases hc : c.isDigit = true
          · rw [show srAux (c :: rest) cur false = cur.reverse :: srAux rest [c] true from by
              simp [srAux, hc]]
            have hall := ht rfl
            rw [List.map_cons, keyOfPiece_str _ (by simpa using hall)]
            refine AltKeys.strk _ _ ?_
            apply ih
            · intro _
              exact ⟨by simp, by simp [hc]⟩
            · intro h
              cases h
          · have hcf : c.isDigit = false := by simpa using hc
            rw [show srAux (c :: rest) cur false = srAux rest (c :: cur) false from by
              simp [srAux, hcf]]
            apply ih
            · intro h
              cases h
            · intro _
              have hall := ht rfl
              simp [List.all_cons, hall, hcf]

/-- Every produced key starts with a text component and alternates. -/
theorem natural_key_alt (s : List Char) : AltKeys false (natural_key s) := by
  unfold natural_key splitRuns
  exact srAux_alt s [] false (fun h => by cases h) (fun _ => by simp)

/-- C9: `natural_key` splits a name into alternating text/number runs (so two
keys never compare a number against a text at the same position), the induced
comparison is total on produced keys, transitive and asymmetric, and sorting
`["img2.png","img10.png","img1.png"]` with it yields
`["img1.png","img2.png","img10.png"]`. -/
theorem C9_natural_sort_total_order (a b : List Char) :
    AltKeys false (natural_key a)
    ∧ (natural_key a = natural_key b
        ∨ keysLTb (natural_key a) (natural_key b) = true
        ∨ keysLTb (natural_key b) (natural_key a) = true)
    ∧ (∀ k1 k2 k3 : List NKey,
        keysLTb k1 k2 = true → keysLTb k2 k3 = true → keysLTb k1 k3 = true)
    ∧ (∀ k1 k2 : List NKey, keysLTb k1 k2 = true → keysLTb k2 k1 = false)
    ∧ sortNatural ["img2.png".toList, "img10.png".toList, "img1.png".toList]
        = ["img1.png".toList, "img2.png".toList, "img10.png".toList] :=
  ⟨natural_key_alt a,
   keysLTb_tricho_alt (natural_key a) false (natural_key b)
     (natural_key_alt a) (natural_key_alt b),
   keysLTb_trans, keysLTb_asymm, by decide⟩

/-- Witness for C9: transitivity applied to the three example keys. -/
theorem C9_natural_sort_total_order_witness :
    keysLTb (natural_key "img1.png".toList) (natural_key "img2.png".toList) = true
    ∧ keysLTb (natural_key "img2.png".toList) (natural_key "img10.png".toList) = true
    ∧ keysLTb (natural_key "img1.png".toList) (natural_key "img10.png".toList) = true := by
  refine ⟨by decide, by decide, ?_⟩
  exact (C9_natural_sort_total_order "x".toList "y".toList).2.2.1
    (natural_key "img1.png".toList) (natural_key "img2.png".toList)
    (natural_key "img10.png".toList) (by decide) (by decide)

end Vid
